import Mathlib

/-!
Verification of the Laffey Matrix fee-reasonableness calculation.

The embedded code comes from `src/app/api/generate/route.ts`
(`calculateLaffeyComparison` and its `BillingEntry` / `LaffeyComparisonResult`
types) and `src/lib/document-utils.ts` (`getLaffeyTier`, `calculateLaffeyRate`).

Modelling conventions:
* JavaScript `number` values are modelled as `ℚ` (exact arithmetic).  JavaScript
  division by zero produces `Infinity`/`NaN`; in `ℚ` we have `x / 0 = 0`.  Where
  a claim depends on that difference it is called out at the claim.
* The optional `yearsExperience` field and the optional `attorneys` roster are
  `Option`s.  The JavaScript `a || b` fallback on numbers (which treats `0` as
  absent) is modelled by `jsOrNum`.
* The insertion-ordered JavaScript `Map` is modelled as an association list
  (`List (String × AttorneyAgg)`) with lookup of the first matching key,
  in-place update of the first matching key, and append of new keys.
* For claim C7 (missing schedule fields at runtime) there is a second model in
  which the rate-table fields are `Option ℚ` and arithmetic propagates the
  absent value the way JavaScript `undefined`/`NaN` arithmetic does.
-/

namespace LemonLaw

/-- `BillingEntry` from `src/app/api/generate/route.ts`: one billable time
entry.  `yearsExperience` is an optional field there. -/
structure BillingEntry where
  attorney : String
  hours : ℚ
  rate : ℚ
  descr : String
  date : String
  yearsExperience : Option ℚ
deriving DecidableEq

/-- One element of the optional `attorneys` roster of `GenerateRequest`. -/
structure AttorneyRecord where
  name : String
  yearsExperience : ℚ
  isParalegal : Bool
deriving DecidableEq

/-- The `laffeyMatrix` field of `GenerateRequest`: the benchmark rate table. -/
structure LaffeyMatrix where
  tier1to3Rate : ℚ
  tier4to7Rate : ℚ
  tier8to10Rate : ℚ
  tier11to19Rate : ℚ
  tier20PlusRate : ℚ
  paralegalRate : ℚ
deriving DecidableEq

/-- `getLaffeyTier` from `src/lib/document-utils.ts`. -/
def getLaffeyTier (yearsExperience : ℚ) : String :=
  if yearsExperience ≤ 3 then "tier1to3"
  else if yearsExperience ≤ 7 then "tier4to7"
  else if yearsExperience ≤ 10 then "tier8to10"
  else if yearsExperience ≤ 19 then "tier11to19"
  else "tier20Plus"

/-- `calculateLaffeyRate` from `src/lib/document-utils.ts`. -/
def calculateLaffeyRate (yearsExperience : ℚ) (laffeyMatrix : LaffeyMatrix) : ℚ :=
  if yearsExperience ≤ 3 then laffeyMatrix.tier1to3Rate
  else if yearsExperience ≤ 7 then laffeyMatrix.tier4to7Rate
  else if yearsExperience ≤ 10 then laffeyMatrix.tier8to10Rate
  else if yearsExperience ≤ 19 then laffeyMatrix.tier11to19Rate
  else laffeyMatrix.tier20PlusRate

/-- JavaScript `x || y` on an optional number: `undefined` and `0` are falsy
and fall through to `y`. -/
def jsOrNum (x : Option ℚ) (y : ℚ) : ℚ :=
  match x with
  | none => y
  | some v => if v = 0 then y else v

/-- `attorneys?.find(a => a.name === entry.attorney)?.yearsExperience`. -/
def rosterExperience (attorneys : Option (List AttorneyRecord)) (name : String) : Option ℚ :=
  attorneys.bind fun l => (l.find? fun a => a.name == name).map (·.yearsExperience)

/-- The experience resolution in `calculateLaffeyComparison`:
`entry.yearsExperience || attorneys?.find(...)?.yearsExperience || 5`. -/
def resolveYearsExp (attorneys : Option (List AttorneyRecord)) (entry : BillingEntry) : ℚ :=
  jsOrNum entry.yearsExperience (jsOrNum (rosterExperience attorneys entry.attorney) 5)

/-- The per-attorney accumulator stored in the `byAttorney` map. -/
structure AttorneyAgg where
  hours : ℚ
  billedRate : ℚ
  yearsExperience : ℚ
deriving DecidableEq

/-- The insertion-ordered `Map<string, AttorneyAgg>` as an association list. -/
abbrev AggMap := List (String × AttorneyAgg)

/-- `byAttorney.get(name)`: first binding with the given key. -/
def findAgg : AggMap → String → Option AttorneyAgg
  | [], _ => none
  | (k, v) :: rest, name => if k = name then some v else findAgg rest name

/-- Mutation of the aggregate object held in the map: replace the first
binding with the given key. -/
def updateAgg : AggMap → String → AttorneyAgg → AggMap
  | [], _, _ => []
  | (k, v) :: rest, name, newV =>
    if k = name then (k, newV) :: rest else (k, v) :: updateAgg rest name newV

/-- One iteration of the `for (const entry of entries)` loop of
`calculateLaffeyComparison`: resolve experience, then either fold the entry
into the existing aggregate (recomputing the weighted rate with the old hours
before overwriting them) or insert a fresh aggregate. -/
def processEntry (attorneys : Option (List AttorneyRecord)) (m : AggMap)
    (entry : BillingEntry) : AggMap :=
  let yearsExp := resolveYearsExp attorneys entry
  match findAgg m entry.attorney with
  | some existing =>
    let totalHours := existing.hours + entry.hours
    updateAgg m entry.attorney
      ⟨totalHours,
       (existing.billedRate * existing.hours + entry.rate * entry.hours) / totalHours,
       existing.yearsExperience⟩
  | none => m ++ [(entry.attorney, ⟨entry.hours, entry.rate, yearsExp⟩)]

/-- The aggregation loop of `calculateLaffeyComparison`. -/
def aggregateEntries (entries : List BillingEntry)
    (attorneys : Option (List AttorneyRecord)) : AggMap :=
  entries.foldl (processEntry attorneys) []

/-- One element of `LaffeyComparisonResult.byAttorney`. -/
structure LaffeyRow where
  attorney : String
  hours : ℚ
  billedRate : ℚ
  laffeyRate : ℚ
  billedAmount : ℚ
  laffeyAmount : ℚ
deriving DecidableEq

/-- `LaffeyComparisonResult` from `src/app/api/generate/route.ts`. -/
structure LaffeyComparisonResult where
  totalBilled : ℚ
  totalLaffey : ℚ
  difference : ℚ
  isUnderLaffey : Bool
  byAttorney : List LaffeyRow
deriving DecidableEq

/-- The body of the second loop of `calculateLaffeyComparison` for one map
binding. -/
def mkLaffeyRow (laffeyMatrix : LaffeyMatrix) (p : String × AttorneyAgg) : LaffeyRow :=
  let laffeyRate := calculateLaffeyRate p.2.yearsExperience laffeyMatrix
  ⟨p.1, p.2.hours, p.2.billedRate, laffeyRate,
   p.2.hours * p.2.billedRate, p.2.hours * laffeyRate⟩

/-- `calculateLaffeyComparison` from `src/app/api/generate/route.ts`. -/
def calculateLaffeyComparison (entries : List BillingEntry) (laffeyMatrix : LaffeyMatrix)
    (attorneys : Option (List AttorneyRecord)) : LaffeyComparisonResult :=
  let rows := (aggregateEntries entries attorneys).map (mkLaffeyRow laffeyMatrix)
  let totalBilled := (rows.map (·.billedAmount)).sum
  let totalLaffey := (rows.map (·.laffeyAmount)).sum
  ⟨totalBilled, totalLaffey, totalLaffey - totalBilled,
   decide (totalBilled ≤ totalLaffey), rows⟩

/-- The five experience tiers named by the spec. -/
inductive Tier where
  | junior
  | mid
  | senior
  | principal
  | veteran
deriving DecidableEq

/-- Spec-side tier resolution (refinement reference): the spec's table of
inclusive ranges, applied in ascending order with first match winning
(0–3 junior, 4–7 mid, 8–10 senior, 11–19 principal, 20+ veteran). -/
def specResolveTier (yearsExperience : ℕ) : Tier :=
  if yearsExperience ≤ 3 then .junior
  else if 4 ≤ yearsExperience ∧ yearsExperience ≤ 7 then .mid
  else if 8 ≤ yearsExperience ∧ yearsExperience ≤ 10 then .senior
  else if 11 ≤ yearsExperience ∧ yearsExperience ≤ 19 then .principal
  else .veteran

/-- The schedule field the spec assigns to each tier. -/
def specTierRate (t : Tier) (schedule : LaffeyMatrix) : ℚ :=
  match t with
  | .junior => schedule.tier1to3Rate
  | .mid => schedule.tier4to7Rate
  | .senior => schedule.tier8to10Rate
  | .principal => schedule.tier11to19Rate
  | .veteran => schedule.tier20PlusRate

/-- The tier-key string `getLaffeyTier` returns for each spec tier. -/
def specTierKey (t : Tier) : String :=
  match t with
  | .junior => "tier1to3"
  | .mid => "tier4to7"
  | .senior => "tier8to10"
  | .principal => "tier11to19"
  | .veteran => "tier20Plus"

/-- Rate table used for the concrete scenario in C3 (distinct tier rates). -/
def scenarioMatrix : LaffeyMatrix := ⟨300, 400, 500, 600, 700, 200⟩

/-- Two attorneys, tiers junior (3 yrs) and veteran (22 yrs), each billing
10 hours at exactly their tier's benchmark rate from `scenarioMatrix`. -/
def scenarioEntries : List BillingEntry :=
  [⟨"Junior Attorney", 10, 300, "work", "2024-01-02", some 3⟩,
   ⟨"Veteran Attorney", 10, 700, "work", "2024-01-03", some 22⟩]

theorem natCast_le_ofNat (n k : ℕ) : ((n : ℚ) ≤ (k : ℚ)) ↔ n ≤ k := Nat.cast_le

/-- C2: for every non-negative integer number of years of experience, tier
resolution follows the spec's table of inclusive upper bounds applied in
ascending order with first match winning (the spec's tier names junior, mid,
senior, principal, veteran correspond to the code's tier keys "tier1to3",
"tier4to7", "tier8to10", "tier11to19", "tier20Plus" and to the matching
schedule fields); in particular 0 and 3 resolve to the same tier, 3 and 4 to
different tiers, and 20 and 100 both resolve to the veteran tier. -/
theorem tier_resolution_matches_spec :
    (∀ (n : ℕ) (schedule : LaffeyMatrix),
        getLaffeyTier (n : ℚ) = specTierKey (specResolveTier n) ∧
        calculateLaffeyRate (n : ℚ) schedule = specTierRate (specResolveTier n) schedule) ∧
    specResolveTier 0 = specResolveTier 3 ∧
    specResolveTier 3 ≠ specResolveTier 4 ∧
    specResolveTier 20 = Tier.veteran ∧ specResolveTier 100 = Tier.veteran := by
  refine ⟨fun n schedule => ?_, by decide, by decide, by decide, by decide⟩
  have h3 : ((n : ℚ) ≤ 3) ↔ n ≤ 3 := by exact_mod_cast Iff.rfl
  have h7 : ((n : ℚ) ≤ 7) ↔ n ≤ 7 := by exact_mod_cast Iff.rfl
  have h10 : ((n : ℚ) ≤ 10) ↔ n ≤ 10 := by exact_mod_cast Iff.rfl
  have h19 : ((n : ℚ) ≤ 19) ↔ n ≤ 19 := by exact_mod_cast Iff.rfl
  by_cases c3 : n ≤ 3
  · simp [getLaffeyTier, calculateLaffeyRate, specResolveTier, specTierKey, specTierRate,
      c3, h3.mpr c3]
  · by_cases c7 : n ≤ 7
    · have : 4 ≤ n := by omega
      simp [getLaffeyTier, calculateLaffeyRate, specResolveTier, specTierKey, specTierRate,
        c3, c7, this, h3, h7]
    · by_cases c10 : n ≤ 10
      · have : 8 ≤ n := by omega
        simp [getLaffeyTier, calculateLaffeyRate, specResolveTier, specTierKey, specTierRate,
          c3, c7, c10, this, h3, h7, h10]
      · by_cases c19 : n ≤ 19
        · have : 11 ≤ n := by omega
          simp [getLaffeyTier, calculateLaffeyRate, specResolveTier, specTierKey, specTierRate,
            c3, c7, c10, c19, this, h3, h7, h10, h19]
        · simp [getLaffeyTier, calculateLaffeyRate, specResolveTier, specTierKey, specTierRate,
            c3, c7, c10, c19, h3, h7, h10, h19]

/-- C3: in every comparison result `difference` is exactly
`totalLaffey - totalBilled` (the spec's `totalBenchmark - totalBilled`) and
`isUnderLaffey` (the spec's `isAtOrBelowBenchmark`) is true exactly when
`totalBilled ≤ totalLaffey`, with non-strict inequality; in particular, in the
concrete scenario where a junior and a veteran attorney each bill 10 hours at
exactly their tier's benchmark rate, `difference` is 0 and the flag is true. -/
theorem difference_and_flag_law :
    (∀ (entries : List BillingEntry) (laffeyMatrix : LaffeyMatrix)
        (attorneys : Option (List AttorneyRecord)),
      (calculateLaffeyComparison entries laffeyMatrix attorneys).difference
        = (calculateLaffeyComparison entries laffeyMatrix attorneys).totalLaffey
          - (calculateLaffeyComparison entries laffeyMatrix attorneys).totalBilled ∧
      ((calculateLaffeyComparison entries laffeyMatrix attorneys).isUnderLaffey = true ↔
        (calculateLaffeyComparison entries laffeyMatrix attorneys).totalBilled
          ≤ (calculateLaffeyComparison entries laffeyMatrix attorneys).totalLaffey)) ∧
    (calculateLaffeyComparison scenarioEntries scenarioMatrix none).difference = 0 ∧
    (calculateLaffeyComparison scenarioEntries scenarioMatrix none).isUnderLaffey = true := by
  refine ⟨fun entries laffeyMatrix attorneys => ⟨rfl, decide_eq_true_iff⟩, ?_, ?_⟩
  · simp [calculateLaffeyComparison, aggregateEntries, scenarioEntries, scenarioMatrix,
      processEntry, findAgg, updateAgg, mkLaffeyRow, resolveYearsExp, jsOrNum,
      rosterExperience, calculateLaffeyRate, List.foldl]
    norm_num
  · simp [calculateLaffeyComparison, aggregateEntries, scenarioEntries, scenarioMatrix,
      processEntry, findAgg, updateAgg, mkLaffeyRow, resolveYearsExp, jsOrNum,
      rosterExperience, calculateLaffeyRate, List.foldl]
    norm_num

/-- C9: the empty entry list yields, with no error, the comparison result with
`totalBilled = 0`, `totalLaffey = 0`, `difference = 0`, `isUnderLaffey = true`
and an empty per-attorney breakdown. -/
theorem empty_input_zero_result :
    ∀ (laffeyMatrix : LaffeyMatrix) (attorneys : Option (List AttorneyRecord)),
      calculateLaffeyComparison [] laffeyMatrix attorneys = ⟨0, 0, 0, true, []⟩ := by
  intro laffeyMatrix attorneys
  simp [calculateLaffeyComparison, aggregateEntries]

/-- Sum of `hours * billedRate` over the aggregates currently in the map:
exactly the quantity `totalBilled` accumulates in the second loop. -/
def billedSum (m : AggMap) : ℚ := (m.map fun p => p.2.hours * p.2.billedRate).sum

/-- Direct sum of `hours * rate` over the raw input entries. -/
def entriesBilled (entries : List BillingEntry) : ℚ :=
  (entries.map fun e => e.hours * e.rate).sum

theorem findAgg_mem {m : AggMap} {name : String} {v : AttorneyAgg}
    (h : findAgg m name = some v) : (name, v) ∈ m := by
  induction m with
  | nil => simp [findAgg] at h
  | cons p rest ih =>
    obtain ⟨k, w⟩ := p
    by_cases hk : k = name
    · subst hk
      simp [findAgg] at h
      subst h
      exact List.mem_cons_self _ _
    · simp [findAgg, hk] at h
      exact List.mem_cons_of_mem _ (ih h)

theorem billedSum_append (m l : AggMap) :
    billedSum (m ++ l) = billedSum m + billedSum l := by
  simp [billedSum]

theorem billedSum_updateAgg {m : AggMap} {name : String} {w : AttorneyAgg}
    (h : findAgg m name = some w) (v : AttorneyAgg) :
    billedSum (updateAgg m name v)
      = billedSum m - w.hours * w.billedRate + v.hours * v.billedRate := by
  induction m with
  | nil => simp [findAgg] at h
  | cons p rest ih =>
    obtain ⟨k, u⟩ := p
    by_cases hk : k = name
    · subst hk
      simp [findAgg] at h
      subst h
      simp [updateAgg, billedSum]
      ring
    · simp [findAgg, hk] at h
      simp only [updateAgg, if_neg hk, billedSum, List.map_cons, List.sum_cons] at ih ⊢
      rw [ih h]
      ring

theorem mem_updateAgg {m : AggMap} {name : String} {v : AttorneyAgg}
    {p : String × AttorneyAgg} (hp : p ∈ updateAgg m name v) : p.2 = v ∨ p ∈ m := by
  induction m with
  | nil => simp [updateAgg] at hp
  | cons q rest ih =>
    obtain ⟨k, u⟩ := q
    by_cases hk : k = name
    · simp only [updateAgg, if_pos hk] at hp
      rcases List.mem_cons.mp hp with h | h
      · left; rw [h]
      · right; exact List.mem_cons_of_mem _ h
    · simp only [updateAgg, if_neg hk] at hp
      rcases List.mem_cons.mp hp with h | h
      · right; rw [h]; exact List.mem_cons_self _ _
      · rcases ih h with h' | h'
        · left; exact h'
        · right; exact List.mem_cons_of_mem _ h'

theorem processEntry_nonneg {attorneys : Option (List AttorneyRecord)} {m : AggMap}
    {e : BillingEntry} (hm : ∀ p ∈ m, 0 ≤ (p : String × AttorneyAgg).2.hours)
    (he : 0 ≤ e.hours) : ∀ p ∈ processEntry attorneys m e, 0 ≤ p.2.hours := by
  intro p hp
  simp only [processEntry] at hp
  cases hfind : findAgg m e.attorney with
  | some existing =>
    rw [hfind] at hp
    rcases mem_updateAgg hp with h | h
    · rw [h]
      exact add_nonneg (hm _ (findAgg_mem hfind)) he
    · exact hm _ h
  | none =>
    rw [hfind] at hp
    rcases List.mem_append.mp hp with h | h
    · exact hm _ h
    · simp at h
      subst h
      exact he

theorem billedSum_processEntry {attorneys : Option (List AttorneyRecord)} {m : AggMap}
    {e : BillingEntry} (hm : ∀ p ∈ m, 0 ≤ (p : String × AttorneyAgg).2.hours)
    (he : 0 ≤ e.hours) :
    billedSum (processEntry attorneys m e) = billedSum m + e.hours * e.rate := by
  simp only [processEntry]
  cases hfind : findAgg m e.attorney with
  | none =>
    rw [billedSum_append]
    simp [billedSum]
  | some existing =>
    have hex : 0 ≤ existing.hours := hm _ (findAgg_mem hfind)
    rw [billedSum_updateAgg hfind]
    by_cases hz : existing.hours + e.hours = 0
    · have h1 : existing.hours = 0 := by linarith
      have h2 : e.hours = 0 := by linarith
      simp [hz, h1, h2]
    · rw [mul_comm (existing.hours + e.hours), div_mul_cancel₀ _ hz]
      ring

theorem billedSum_foldl {attorneys : Option (List AttorneyRecord)} :
    ∀ (entries : List BillingEntry) (m : AggMap),
    (∀ e ∈ entries, 0 ≤ e.hours) →
    (∀ p ∈ m, 0 ≤ (p : String × AttorneyAgg).2.hours) →
    billedSum (entries.foldl (processEntry attorneys) m)
      = billedSum m + entriesBilled entries := by
  intro entries
  induction entries with
  | nil => intro m _ _; simp [entriesBilled]
  | cons e rest ih =>
    intro m hent hm
    rw [List.foldl_cons,
      ih _ (fun x hx => hent x (List.mem_cons_of_mem _ hx))
        (processEntry_nonneg hm (hent e (List.mem_cons_self _ _))),
      billedSum_processEntry hm (hent e (List.mem_cons_self _ _))]
    simp [entriesBilled]
    ring

theorem totalBilled_eq_billedSum (entries : List BillingEntry) (laffeyMatrix : LaffeyMatrix)
    (attorneys : Option (List AttorneyRecord)) :
    (calculateLaffeyComparison entries laffeyMatrix attorneys).totalBilled
      = billedSum (aggregateEntries entries attorneys) := by
  simp [calculateLaffeyComparison, billedSum, mkLaffeyRow, List.map_map]
  rfl

/-- C1: for every non-empty entry list with non-negative hours, `totalBilled`
equals the direct sum of `hours * rate` over the raw input entries (under the
exact-arithmetic model): grouping by attorney and folding entries into
hours-weighted blended rates neither loses nor double-counts billed time. -/
theorem totalBilled_eq_raw_sum (entries : List BillingEntry) (laffeyMatrix : LaffeyMatrix)
    (attorneys : Option (List AttorneyRecord))
    (hpos : ∀ e ∈ entries, 0 ≤ e.hours) (_hne : entries ≠ []) :
    (calculateLaffeyComparison entries laffeyMatrix attorneys).totalBilled
      = entriesBilled entries := by
  rw [totalBilled_eq_billedSum, aggregateEntries,
    billedSum_foldl entries [] hpos (by simp)]
  simp [billedSum]

/-- Entry list used in witnesses: two attorneys, one of them split across two
entries with different rates. -/
def witnessEntries : List BillingEntry :=
  [⟨"Alice", 2, 300, "research", "2024-01-02", some 9⟩,
   ⟨"Bob", 1, 400, "drafting", "2024-01-03", none⟩,
   ⟨"Alice", 3, 500, "deposition", "2024-01-04", some 9⟩]

theorem totalBilled_eq_raw_sum_witness :
    (calculateLaffeyComparison witnessEntries scenarioMatrix none).totalBilled
      = entriesBilled witnessEntries :=
  totalBilled_eq_raw_sum witnessEntries scenarioMatrix none (by decide) (by decide)

theorem findAgg_updateAgg_self {m : AggMap} {name : String} {w : AttorneyAgg}
    (h : findAgg m name = some w) (v : AttorneyAgg) :
    findAgg (updateAgg m name v) name = some v := by
  induction m with
  | nil => simp [findAgg] at h
  | cons p rest ih =>
    obtain ⟨k, u⟩ := p
    by_cases hk : k = name
    · simp [updateAgg, if_pos hk, findAgg, hk]
    · simp only [findAgg, if_neg hk] at h
      simp [updateAgg, if_neg hk, findAgg, hk, ih h]

theorem findAgg_updateAgg_ne {m : AggMap} {name other : String} (hne : other ≠ name)
    (v : AttorneyAgg) : findAgg (updateAgg m other v) name = findAgg m name := by
  induction m with
  | nil => simp [updateAgg]
  | cons p rest ih =>
    obtain ⟨k, u⟩ := p
    by_cases hk : k = other
    · subst hk
      simp [updateAgg, findAgg, hne]
    · simp [updateAgg, if_neg hk, findAgg, ih]

theorem findAgg_append_left {m : AggMap} {name : String} {v : AttorneyAgg}
    (h : findAgg m name = some v) (l : AggMap) : findAgg (m ++ l) name = some v := by
  induction m with
  | nil => simp [findAgg] at h
  | cons p rest ih =>
    obtain ⟨k, u⟩ := p
    by_cases hk : k = name
    · simp only [findAgg, if_pos hk] at h
      simp [findAgg, hk, h]
    · simp only [findAgg, if_neg hk] at h
      simp [findAgg, hk, ih h]

theorem findAgg_append_none {m : AggMap} {name : String}
    (h : findAgg m name = none) (l : AggMap) :
    findAgg (m ++ l) name = findAgg l name := by
  induction m with
  | nil => simp
  | cons p rest ih =>
    obtain ⟨k, u⟩ := p
    by_cases hk : k = name
    · simp [findAgg, hk] at h
    · simp only [findAgg, if_neg hk] at h
      simp [findAgg, hk, ih h]

theorem processEntry_preserves_found {attorneys : Option (List AttorneyRecord)}
    {m : AggMap} {name : String} {v : AttorneyAgg}
    (h : findAgg m name = some v) (e : BillingEntry) :
    ∃ w, findAgg (processEntry attorneys m e) name = some w ∧
      w.yearsExperience = v.yearsExperience := by
  simp only [processEntry]
  cases hfind : findAgg m e.attorney with
  | some existing =>
    by_cases hk : e.attorney = name
    · subst hk
      rw [h] at hfind
      injection hfind with hv
      subst hv
      exact ⟨_, findAgg_updateAgg_self h _, rfl⟩
    · exact ⟨v, by rw [findAgg_updateAgg_ne hk]; exact h, rfl⟩
  | none => exact ⟨v, findAgg_append_left h _, rfl⟩

theorem foldl_preserves_found {attorneys : Option (List AttorneyRecord)} :
    ∀ (entries : List BillingEntry) (m : AggMap) {name : String} {v : AttorneyAgg},
    findAgg m name = some v →
    ∃ w, findAgg (entries.foldl (processEntry attorneys) m) name = some w ∧
      w.yearsExperience = v.yearsExperience := by
  intro entries
  induction entries with
  | nil => exact fun m name v h => ⟨v, h, rfl⟩
  | cons e rest ih =>
    intro m name v h
    rw [List.foldl_cons]
    obtain ⟨w, hw, hexp⟩ := processEntry_preserves_found h e
    obtain ⟨w', hw', hexp'⟩ := ih _ hw
    exact ⟨w', hw', hexp'.trans hexp⟩

theorem processEntry_preserves_none {attorneys : Option (List AttorneyRecord)}
    {m : AggMap} {name : String} {e : BillingEntry}
    (hne : e.attorney ≠ name) (h : findAgg m name = none) :
    findAgg (processEntry attorneys m e) name = none := by
  simp only [processEntry]
  cases hfind : findAgg m e.attorney with
  | some existing => rw [findAgg_updateAgg_ne hne]; exact h
  | none =>
    rw [findAgg_append_none h]
    simp [findAgg, hne]

theorem foldl_first_experience (attorneys : Option (List AttorneyRecord)) :
    ∀ (entries : List BillingEntry) (m : AggMap) {a : String} {e : BillingEntry},
    findAgg m a = none →
    entries.find? (fun x => x.attorney == a) = some e →
    ∃ w, findAgg (entries.foldl (processEntry attorneys) m) a = some w ∧
      w.yearsExperience = resolveYearsExp attorneys e := by
  intro entries
  induction entries with
  | nil => intro m a e _ hfind; simp at hfind
  | cons x rest ih =>
    intro m a e hnone hfind
    rw [List.foldl_cons]
    by_cases hx : x.attorney = a
    · have hex : e = x := by
        rw [List.find?_cons_of_pos _ (by simp [hx])] at hfind
        injection hfind with h
        exact h.symm
      subst hex
      have hstep : findAgg (processEntry attorneys m e) a
          = some ⟨e.hours, e.rate, resolveYearsExp attorneys e⟩ := by
        simp only [processEntry]
        rw [show findAgg m e.attorney = none from hx ▸ hnone,
          findAgg_append_none hnone]
        simp [findAgg, hx]
      obtain ⟨w, hw, hexp⟩ := foldl_preserves_found rest _ hstep
      exact ⟨w, hw, hexp⟩
    · have hfind' : rest.find? (fun x => x.attorney == a) = some e := by
        rw [List.find?_cons_of_neg _ (by simp [hx])] at hfind
        exact hfind
      exact ih _ (processEntry_preserves_none hx hnone) hfind'

/-- Keys of the aggregation map, in insertion order. -/
def aggKeys (m : AggMap) : List String := m.map (·.1)

theorem aggKeys_updateAgg (m : AggMap) (name : String) (v : AttorneyAgg) :
    aggKeys (updateAgg m name v) = aggKeys m := by
  induction m with
  | nil => rfl
  | cons p rest ih =>
    obtain ⟨k, u⟩ := p
    by_cases hk : k = name
    · simp [updateAgg, hk, aggKeys]
    · simp [updateAgg, hk, aggKeys]
      simpa [aggKeys] using ih

theorem findAgg_eq_none_iff {m : AggMap} {name : String} :
    findAgg m name = none ↔ name ∉ aggKeys m := by
  induction m with
  | nil => simp [findAgg, aggKeys]
  | cons p rest ih =>
    obtain ⟨k, u⟩ := p
    by_cases hk : k = name
    · simp [findAgg, aggKeys, hk, ih]
    · simp [findAgg, aggKeys, hk, ih]
      tauto

theorem mem_aggKeys_processEntry {attorneys : Option (List AttorneyRecord)}
    {m : AggMap} {e : BillingEntry} {a : String} :
    a ∈ aggKeys (processEntry attorneys m e) ↔ a ∈ aggKeys m ∨ a = e.attorney := by
  simp only [processEntry]
  cases hfind : findAgg m e.attorney with
  | some existing =>
    rw [aggKeys_updateAgg]
    have hmem : e.attorney ∈ aggKeys m := by
      have := findAgg_mem hfind
      exact List.mem_map.mpr ⟨_, this, rfl⟩
    constructor
    · exact Or.inl
    · rintro (h | h)
      · exact h
      · exact h ▸ hmem
  | none => simp [aggKeys]

theorem aggKeys_processEntry_nodup {attorneys : Option (List AttorneyRecord)}
    {m : AggMap} {e : BillingEntry} (h : (aggKeys m).Nodup) :
    (aggKeys (processEntry attorneys m e)).Nodup := by
  simp only [processEntry]
  cases hfind : findAgg m e.attorney with
  | some existing => rw [aggKeys_updateAgg]; exact h
  | none =>
    have hnot : e.attorney ∉ aggKeys m := findAgg_eq_none_iff.mp hfind
    simp [aggKeys] at h hnot ⊢
    simp [List.nodup_append, h, hnot]

theorem aggKeys_foldl_nodup {attorneys : Option (List AttorneyRecord)} :
    ∀ (entries : List BillingEntry) (m : AggMap), (aggKeys m).Nodup →
    (aggKeys (entries.foldl (processEntry attorneys) m)).Nodup := by
  intro entries
  induction entries with
  | nil => exact fun m h => h
  | cons e rest ih =>
    intro m h
    rw [List.foldl_cons]
    exact ih _ (aggKeys_processEntry_nodup h)

theorem mem_aggKeys_foldl {attorneys : Option (List AttorneyRecord)} :
    ∀ (entries : List BillingEntry) (m : AggMap) (a : String),
    a ∈ aggKeys (entries.foldl (processEntry attorneys) m) ↔
      a ∈ aggKeys m ∨ a ∈ entries.map (·.attorney) := by
  intro entries
  induction entries with
  | nil => simp
  | cons e rest ih =>
    intro m a
    rw [List.foldl_cons, ih, mem_aggKeys_processEntry]
    simp
    tauto

theorem aggregateEntries_keys_nodup (entries : List BillingEntry)
    (attorneys : Option (List AttorneyRecord)) :
    (aggKeys (aggregateEntries entries attorneys)).Nodup :=
  aggKeys_foldl_nodup entries [] (by simp [aggKeys])

theorem mem_aggregateEntries_keys (entries : List BillingEntry)
    (attorneys : Option (List AttorneyRecord)) (a : String) :
    a ∈ aggKeys (aggregateEntries entries attorneys) ↔ a ∈ entries.map (·.attorney) := by
  rw [aggregateEntries, mem_aggKeys_foldl]
  simp [aggKeys]

theorem findAgg_of_mem_nodup {m : AggMap} (hnodup : (aggKeys m).Nodup)
    {k : String} {v : AttorneyAgg} (hmem : (k, v) ∈ m) : findAgg m k = some v := by
  induction m with
  | nil => simp at hmem
  | cons p rest ih =>
    obtain ⟨k', u⟩ := p
    simp only [aggKeys, List.map_cons, List.nodup_cons] at hnodup
    rcases List.mem_cons.mp hmem with h | h
    · obtain ⟨h1, h2⟩ := Prod.mk.injEq .. ▸ h
      simp [findAgg, h1.symm, h2]
    · have hk : k' ≠ k := by
        intro hkk
        subst hkk
        exact hnodup.1 (List.mem_map.mpr ⟨_, h, rfl⟩)
      simp only [findAgg, if_neg hk]
      exact ih hnodup.2 h

/-- C10: for every entry list, the benchmark rate applied to an attorney is
determined solely by the years of experience resolved at that attorney's
first entry in the list: the stored experience equals `resolveYearsExp` of the
first entry carrying that attorney name, and every breakdown row for that
attorney uses `calculateLaffeyRate` of exactly that value, regardless of what
`yearsExperience` later entries carry. -/
theorem benchmark_from_first_entry (entries : List BillingEntry)
    (laffeyMatrix : LaffeyMatrix) (attorneys : Option (List AttorneyRecord))
    (a : String) (e : BillingEntry)
    (hfind : entries.find? (fun x => x.attorney == a) = some e) :
    (∃ w, findAgg (aggregateEntries entries attorneys) a = some w ∧
       w.yearsExperience = resolveYearsExp attorneys e) ∧
    ∀ r ∈ (calculateLaffeyComparison entries laffeyMatrix attorneys).byAttorney,
      r.attorney = a →
      r.laffeyRate = calculateLaffeyRate (resolveYearsExp attorneys e) laffeyMatrix := by
  have hmain := foldl_first_experience attorneys entries [] (by simp [findAgg]) hfind
  refine ⟨hmain, ?_⟩
  intro r hr hra
  have hrows : (calculateLaffeyComparison entries laffeyMatrix attorneys).byAttorney
      = (aggregateEntries entries attorneys).map (mkLaffeyRow laffeyMatrix) := rfl
  rw [hrows] at hr
  obtain ⟨p, hp, hpr⟩ := List.mem_map.mp hr
  have hp1 : p.1 = a := by
    rw [← hpr] at hra
    exact hra
  obtain ⟨w, hw, hexp⟩ := hmain
  have : findAgg (aggregateEntries entries attorneys) p.1 = some p.2 :=
    findAgg_of_mem_nodup (aggregateEntries_keys_nodup entries attorneys) hp
  rw [hp1, aggregateEntries, hw] at this
  injection this with hpw
  rw [← hpr]
  simp only [mkLaffeyRow]
  rw [← hpw, hexp]

/-- Entries for the C10 witness: the same attorney appears twice with
conflicting `yearsExperience` values (9 then 25). -/
def witnessEntriesFirst : List BillingEntry :=
  [⟨"Alice", 2, 300, "research", "2024-01-02", some 9⟩,
   ⟨"Alice", 3, 500, "deposition", "2024-01-04", some 25⟩]

theorem benchmark_from_first_entry_witness :
    (∃ w, findAgg (aggregateEntries witnessEntriesFirst none) "Alice" = some w ∧
       w.yearsExperience
         = resolveYearsExp none ⟨"Alice", 2, 300, "research", "2024-01-02", some 9⟩) ∧
    ∀ r ∈ (calculateLaffeyComparison witnessEntriesFirst scenarioMatrix none).byAttorney,
      r.attorney = "Alice" →
      r.laffeyRate = calculateLaffeyRate
        (resolveYearsExp none ⟨"Alice", 2, 300, "research", "2024-01-02", some 9⟩)
        scenarioMatrix :=
  benchmark_from_first_entry witnessEntriesFirst scenarioMatrix none "Alice" _ (by decide)

/-- Roster used by the C4 counterexample: Alice is on record with 10 years. -/
def cexRoster : List AttorneyRecord := [⟨"Alice", 10, false⟩]

/-- Entry whose own `yearsExperience` is present but equal to 0. -/
def cexEntryZero : BillingEntry := ⟨"Alice", 1, 50, "research", "2024-01-02", some 0⟩

/-- C4 counterexample: an entry carrying `yearsExperience = 0` does NOT use
its own value: the JavaScript `||` fallback treats 0 as absent, so the roster
value 10 is used and the benchmark rate comes from the senior tier (500)
instead of the junior tier (300) the claim requires for 0 years. -/
theorem resolve_experience_zero_cex :
    cexEntryZero.yearsExperience = some 0 ∧
    resolveYearsExp (some cexRoster) cexEntryZero = 10 ∧
    (calculateLaffeyComparison [cexEntryZero] scenarioMatrix (some cexRoster)).totalLaffey
      = 500 ∧
    calculateLaffeyRate 0 scenarioMatrix = 300 ∧ ((500 : ℚ) ≠ 300) := by
  refine ⟨by decide, ?_, ?_, ?_, by norm_num⟩
  · simp [resolveYearsExp, jsOrNum, rosterExperience, cexRoster, cexEntryZero]
  · simp [calculateLaffeyComparison, aggregateEntries, processEntry, findAgg, updateAgg,
      mkLaffeyRow, resolveYearsExp, jsOrNum, rosterExperience, calculateLaffeyRate,
      cexRoster, cexEntryZero, scenarioMatrix, List.foldl]
    norm_num
  · norm_num [calculateLaffeyRate, scenarioMatrix]

/-- C4 amended: experience resolution follows JavaScript truthiness, not
presence: the entry's own `yearsExperience` is used when present AND nonzero;
otherwise the roster's exact-name-match value when found AND nonzero;
otherwise the default 5.  An entry value of 0 (and likewise a roster value of
0) falls through to the next step. -/
theorem resolve_experience_truthiness (attorneys : Option (List AttorneyRecord))
    (e : BillingEntry) :
    (∀ y : ℚ, e.yearsExperience = some y → y ≠ 0 → resolveYearsExp attorneys e = y) ∧
    ((e.yearsExperience = none ∨ e.yearsExperience = some 0) →
      ∀ y : ℚ, rosterExperience attorneys e.attorney = some y → y ≠ 0 →
        resolveYearsExp attorneys e = y) ∧
    ((e.yearsExperience = none ∨ e.yearsExperience = some 0) →
      (rosterExperience attorneys e.attorney = none ∨
        rosterExperience attorneys e.attorney = some 0) →
      resolveYearsExp attorneys e = 5) := by
  refine ⟨?_, ?_, ?_⟩
  · intro y hy hy0
    simp [resolveYearsExp, hy, jsOrNum, hy0]
  · intro hown y hy hy0
    rcases hown with h | h
    · simp [resolveYearsExp, h, hy, jsOrNum, hy0]
    · simp [resolveYearsExp, h, hy, jsOrNum, hy0]
  · intro hown hroster
    rcases hown with h | h
    · rcases hroster with h' | h'
      · simp [resolveYearsExp, h, h', jsOrNum]
      · simp [resolveYearsExp, h, h', jsOrNum]
    · rcases hroster with h' | h'
      · simp [resolveYearsExp, h, h', jsOrNum]
      · simp [resolveYearsExp, h, h', jsOrNum]

theorem resolve_experience_truthiness_witness :
    resolveYearsExp (some cexRoster) cexEntryZero = 10 ∧
    resolveYearsExp none ⟨"Bob", 1, 100, "research", "2024-01-05", some 7⟩ = 7 ∧
    resolveYearsExp none ⟨"Bob", 1, 100, "research", "2024-01-05", none⟩ = 5 :=
  ⟨(resolve_experience_truthiness (some cexRoster) cexEntryZero).2.1
      (Or.inr (by decide)) 10 (by decide) (by norm_num),
   (resolve_experience_truthiness none _).1 7 (by decide) (by norm_num),
   (resolve_experience_truthiness none _).2.2 (Or.inl (by decide))
      (Or.inl (by decide))⟩

/-- First zero-hours entry for Alice, billed at rate 500. -/
def zeroHoursA : BillingEntry := ⟨"Alice", 0, 500, "call", "2024-01-02", some 9⟩

/-- Second zero-hours entry for Alice, billed at rate 600. -/
def zeroHoursB : BillingEntry := ⟨"Alice", 0, 600, "call", "2024-01-03", some 9⟩

/-- C5 failing input evaluated: after Alice's first zero-hours entry her
aggregate is `hours = 0, billedRate = 500`; processing a second zero-hours
entry computes `(500*0 + 600*0) / (0+0)` — a division by zero (NaN in
JavaScript, 0 under this model's `x / 0 = 0` convention) — so her blended
rate is NOT left unchanged: it drops from 500 to 0.  The code has no
denominator guard. -/
theorem zero_hours_division_by_zero_eval :
    findAgg (aggregateEntries [zeroHoursA] none) "Alice"
      = some ⟨0, 500, 9⟩ ∧
    findAgg (aggregateEntries [zeroHoursA, zeroHoursB] none) "Alice"
      = some ⟨0, 0, 9⟩ ∧
    ((0 : ℚ) ≠ 500) := by
  refine ⟨?_, ?_, by norm_num⟩
  · simp [aggregateEntries, processEntry, findAgg, updateAgg, resolveYearsExp, jsOrNum,
      rosterExperience, zeroHoursA, List.foldl]
  · simp [aggregateEntries, processEntry, findAgg, updateAgg, resolveYearsExp, jsOrNum,
      rosterExperience, zeroHoursA, zeroHoursB, List.foldl]

/-- Entry with negative hours. -/
def negHoursEntry : BillingEntry := ⟨"Alice", -1, 100, "travel", "2024-01-02", some 5⟩

/-- Entry whose resolved experience is negative. -/
def negExpEntry : BillingEntry := ⟨"Bob", 1, 100, "travel", "2024-01-02", some (-2)⟩

/-- C6 counterexample: no `InvalidInput` is ever raised — the calculator has
no validation and no error channel.  An entry with negative hours (and
likewise one whose resolved experience is negative) flows straight through
the arithmetic and a complete comparison result is produced. -/
theorem negative_input_not_rejected_cex :
    negHoursEntry.hours < 0 ∧
    calculateLaffeyComparison [negHoursEntry] scenarioMatrix none
      = ⟨-100, -400, -300, false, [⟨"Alice", -1, 100, 400, -100, -400⟩]⟩ ∧
    resolveYearsExp none negExpEntry < 0 ∧
    calculateLaffeyComparison [negExpEntry] scenarioMatrix none
      = ⟨100, 300, 200, true, [⟨"Bob", 1, 100, 300, 100, 300⟩]⟩ := by
  refine ⟨by norm_num [negHoursEntry], ?_, ?_, ?_⟩
  · simp [calculateLaffeyComparison, aggregateEntries, processEntry, findAgg, updateAgg,
      mkLaffeyRow, resolveYearsExp, jsOrNum, rosterExperience, calculateLaffeyRate,
      negHoursEntry, scenarioMatrix, List.foldl]
    norm_num
  · norm_num [resolveYearsExp, jsOrNum, rosterExperience, negExpEntry]
  · simp [calculateLaffeyComparison, aggregateEntries, processEntry, findAgg, updateAgg,
      mkLaffeyRow, resolveYearsExp, jsOrNum, rosterExperience, calculateLaffeyRate,
      negExpEntry, scenarioMatrix, List.foldl]
    norm_num

/-- C6 amended: the calculator is total and performs no input validation:
for EVERY entry list — including lists containing negative hours or negative
resolved experience — it returns a comparison result containing exactly one
breakdown row per distinct attorney name; nothing is rejected and no error
path exists. -/
theorem calculator_total_row_per_attorney (entries : List BillingEntry)
    (laffeyMatrix : LaffeyMatrix) (attorneys : Option (List AttorneyRecord)) :
    (calculateLaffeyComparison entries laffeyMatrix attorneys).byAttorney.length
      = (entries.map (·.attorney)).dedup.length := by
  have h1 : (calculateLaffeyComparison entries laffeyMatrix attorneys).byAttorney.length
      = (aggKeys (aggregateEntries entries attorneys)).length := by
    simp [calculateLaffeyComparison, aggKeys]
  rw [h1]
  have hperm : (aggKeys (aggregateEntries entries attorneys)).Perm
      ((entries.map (·.attorney)).dedup) := by
    refine (List.perm_ext_iff_of_nodup (aggregateEntries_keys_nodup entries attorneys)
      (List.nodup_dedup _)).mpr ?_
    intro a
    rw [mem_aggregateEntries_keys, List.mem_dedup]
  exact hperm.length_eq

/-- JavaScript number-or-undefined for the C7 runtime model: `none` stands
for `undefined` and for the `NaN` it becomes under arithmetic.  The request
body is cast from JSON without validation, so a tier field really can be
`undefined` at runtime even though the TypeScript type says `number`. -/
abbrev JsNum := Option ℚ

/-- JavaScript `+` when an operand may be `undefined`/`NaN`: poisoning. -/
def jsAdd : JsNum → JsNum → JsNum
  | some a, some b => some (a + b)
  | _, _ => none

/-- JavaScript `*` when an operand may be `undefined`/`NaN`: poisoning. -/
def jsMul : JsNum → JsNum → JsNum
  | some a, some b => some (a * b)
  | _, _ => none

/-- JavaScript `-` when an operand may be `undefined`/`NaN`: poisoning. -/
def jsSub : JsNum → JsNum → JsNum
  | some a, some b => some (a - b)
  | _, _ => none

/-- JavaScript `<=`: every comparison involving `NaN` is false. -/
def jsLe : JsNum → JsNum → Bool
  | some a, some b => decide (a ≤ b)
  | _, _ => false

/-- The rate table as it can actually arrive at runtime: fields may be
`undefined`. -/
structure LaffeyMatrixJs where
  tier1to3Rate : JsNum
  tier4to7Rate : JsNum
  tier8to10Rate : JsNum
  tier11to19Rate : JsNum
  tier20PlusRate : JsNum
  paralegalRate : JsNum
deriving DecidableEq

/-- `calculateLaffeyRate` on a possibly-incomplete table: the code returns the
resolved field with no check, so a missing field is returned as `undefined`. -/
def calculateLaffeyRateJs (yearsExperience : ℚ) (laffeyMatrix : LaffeyMatrixJs) : JsNum :=
  if yearsExperience ≤ 3 then laffeyMatrix.tier1to3Rate
  else if yearsExperience ≤ 7 then laffeyMatrix.tier4to7Rate
  else if yearsExperience ≤ 10 then laffeyMatrix.tier8to10Rate
  else if yearsExperience ≤ 19 then laffeyMatrix.tier11to19Rate
  else laffeyMatrix.tier20PlusRate

/-- Breakdown row in the runtime model. -/
structure LaffeyRowJs where
  attorney : String
  hours : ℚ
  billedRate : ℚ
  laffeyRate : JsNum
  billedAmount : ℚ
  laffeyAmount : JsNum
deriving DecidableEq

/-- Comparison result in the runtime model. -/
structure LaffeyComparisonResultJs where
  totalBilled : ℚ
  totalLaffey : JsNum
  difference : JsNum
  isUnderLaffey : Bool
  byAttorney : List LaffeyRowJs
deriving DecidableEq

/-- Second-loop body of `calculateLaffeyComparison` in the runtime model. -/
def mkLaffeyRowJs (laffeyMatrix : LaffeyMatrixJs) (p : String × AttorneyAgg) : LaffeyRowJs :=
  let laffeyRate := calculateLaffeyRateJs p.2.yearsExperience laffeyMatrix
  ⟨p.1, p.2.hours, p.2.billedRate, laffeyRate,
   p.2.hours * p.2.billedRate, jsMul (some p.2.hours) laffeyRate⟩

/-- `calculateLaffeyComparison` in the runtime model: identical control flow,
with the benchmark side carried as `JsNum`. -/
def calculateLaffeyComparisonJs (entries : List BillingEntry) (laffeyMatrix : LaffeyMatrixJs)
    (attorneys : Option (List AttorneyRecord)) : LaffeyComparisonResultJs :=
  let rows := (aggregateEntries entries attorneys).map (mkLaffeyRowJs laffeyMatrix)
  let totalBilled := (rows.map (·.billedAmount)).sum
  let totalLaffey := (rows.map (·.laffeyAmount)).foldl jsAdd (some 0)
  ⟨totalBilled, totalLaffey, jsSub totalLaffey (some totalBilled),
   jsLe (some totalBilled) totalLaffey, rows⟩

theorem jsAdd_none_left (b : JsNum) : jsAdd none b = none := by
  cases b <;> rfl

theorem jsAdd_none_right (a : JsNum) : jsAdd a none = none := by
  cases a <;> rfl

theorem foldl_jsAdd_from_none : ∀ (l : List JsNum), l.foldl jsAdd none = none := by
  intro l
  induction l with
  | nil => rfl
  | cons x rest ih => rw [List.foldl_cons, jsAdd_none_left]; exact ih

theorem foldl_jsAdd_none {l : List JsNum} (h : none ∈ l) (acc : JsNum) :
    l.foldl jsAdd acc = none := by
  induction l generalizing acc with
  | nil => simp at h
  | cons x rest ih =>
    rw [List.foldl_cons]
    rcases List.mem_cons.mp h with hx | hx
    · rw [← hx, jsAdd_none_right]
      exact foldl_jsAdd_from_none rest
    · exact ih hx _

/-- Rate table with the junior-tier rate missing. -/
def missingMatrix : LaffeyMatrixJs := ⟨none, some 400, some 500, some 600, some 700, some 200⟩

/-- Entry whose attorney resolves to the junior tier. -/
def juniorEntry : BillingEntry := ⟨"Carol", 2, 100, "research", "2024-01-02", some 2⟩

/-- C7 counterexample: with the junior-tier rate missing from the schedule,
the comparison does NOT fail with any `IncompleteSchedule` error — there is no
error path.  It silently completes: the attorney stays in the breakdown with
an `undefined` benchmark rate, the benchmark totals become `NaN`, and the
at-or-below flag is false. -/
theorem missing_tier_rate_cex :
    calculateLaffeyComparisonJs [juniorEntry] missingMatrix none
      = ⟨200, none, none, false, [⟨"Carol", 2, 100, none, 200, none⟩]⟩ := by
  simp [calculateLaffeyComparisonJs, aggregateEntries, processEntry, findAgg, updateAgg,
    mkLaffeyRowJs, resolveYearsExp, jsOrNum, rosterExperience, calculateLaffeyRateJs,
    missingMatrix, juniorEntry, jsMul, jsAdd, jsSub, jsLe, List.foldl]
  norm_num

/-- C7 amended: a missing/undefined schedule field for some attorney's
resolved tier raises nothing: rate resolution returns `undefined`, the
attorney's benchmark amount and `totalLaffey` become `NaN`, `difference`
becomes `NaN`, and `isUnderLaffey` is false — the comparison silently
completes instead of failing. -/
theorem missing_tier_rate_poisons_totals (entries : List BillingEntry)
    (laffeyMatrix : LaffeyMatrixJs) (attorneys : Option (List AttorneyRecord))
    (hmissing : ∃ r ∈ (calculateLaffeyComparisonJs entries laffeyMatrix attorneys).byAttorney,
      r.laffeyRate = none) :
    (calculateLaffeyComparisonJs entries laffeyMatrix attorneys).totalLaffey = none ∧
    (calculateLaffeyComparisonJs entries laffeyMatrix attorneys).isUnderLaffey = false ∧
    (calculateLaffeyComparisonJs entries laffeyMatrix attorneys).difference = none := by
  obtain ⟨r, hr, hrate⟩ := hmissing
  have hamt : r.laffeyAmount = none := by
    have hr' : r ∈ (aggregateEntries entries attorneys).map (mkLaffeyRowJs laffeyMatrix) := hr
    obtain ⟨p, _, hpr⟩ := List.mem_map.mp hr'
    rw [← hpr] at hrate ⊢
    simp only [mkLaffeyRowJs] at hrate ⊢
    rw [hrate]
    rfl
  have htl : (calculateLaffeyComparisonJs entries laffeyMatrix attorneys).totalLaffey = none := by
    have hmem : none ∈ ((calculateLaffeyComparisonJs entries laffeyMatrix
        attorneys).byAttorney.map (·.laffeyAmount)) :=
      List.mem_map.mpr ⟨r, hr, hamt⟩
    exact foldl_jsAdd_none hmem _
  refine ⟨htl, ?_, ?_⟩
  · have hflag : (calculateLaffeyComparisonJs entries laffeyMatrix attorneys).isUnderLaffey
        = jsLe (some (calculateLaffeyComparisonJs entries laffeyMatrix attorneys).totalBilled)
            (calculateLaffeyComparisonJs entries laffeyMatrix attorneys).totalLaffey := rfl
    rw [hflag, htl]
    rfl
  · have hdiff : (calculateLaffeyComparisonJs entries laffeyMatrix attorneys).difference
        = jsSub (calculateLaffeyComparisonJs entries laffeyMatrix attorneys).totalLaffey
            (some (calculateLaffeyComparisonJs entries laffeyMatrix attorneys).totalBilled) := rfl
    rw [hdiff, htl]
    rfl

theorem missing_tier_rate_poisons_totals_witness :
    (calculateLaffeyComparisonJs [juniorEntry] missingMatrix none).totalLaffey = none ∧
    (calculateLaffeyComparisonJs [juniorEntry] missingMatrix none).isUnderLaffey = false ∧
    (calculateLaffeyComparisonJs [juniorEntry] missingMatrix none).difference = none :=
  missing_tier_rate_poisons_totals [juniorEntry] missingMatrix none
    ⟨⟨"Carol", 2, 100, none, 200, none⟩,
     by
      simp [calculateLaffeyComparisonJs, aggregateEntries, processEntry, findAgg, updateAgg,
        mkLaffeyRowJs, resolveYearsExp, jsOrNum, rosterExperience, calculateLaffeyRateJs,
        missingMatrix, juniorEntry, jsMul, List.foldl]
      norm_num,
     rfl⟩

/-- The entries of one attorney, in list order. -/
def attorneyEntries (entries : List BillingEntry) (a : String) : List BillingEntry :=
  entries.filter fun e => e.attorney == a

/-- Total hours over a list of entries. -/
def hoursSum (l : List BillingEntry) : ℚ := (l.map (·.hours)).sum

/-- Total `rate * hours` over a list of entries. -/
def weightedSum (l : List BillingEntry) : ℚ := (l.map fun e => e.rate * e.hours).sum

theorem hoursSum_cons (e : BillingEntry) (l : List BillingEntry) :
    hoursSum (e :: l) = e.hours + hoursSum l := by
  simp [hoursSum]

theorem weightedSum_cons (e : BillingEntry) (l : List BillingEntry) :
    weightedSum (e :: l) = e.rate * e.hours + weightedSum l := by
  simp [weightedSum]

theorem hoursSum_nonneg {l : List BillingEntry} (h : ∀ e ∈ l, 0 ≤ e.hours) :
    0 ≤ hoursSum l := by
  induction l with
  | nil => simp [hoursSum]
  | cons e rest ih =>
    rw [hoursSum_cons]
    exact add_nonneg (h e (List.mem_cons_self _ _))
      (ih fun x hx => h x (List.mem_cons_of_mem _ hx))

theorem processEntry_findAgg_ne {attorneys : Option (List AttorneyRecord)} {m : AggMap}
    {e : BillingEntry} {a : String} (hne : e.attorney ≠ a) :
    findAgg (processEntry attorneys m e) a = findAgg m a := by
  simp only [processEntry]
  cases hfind : findAgg m e.attorney with
  | some existing => exact findAgg_updateAgg_ne hne _
  | none =>
    cases hma : findAgg m a with
    | some v => exact findAgg_append_left hma _
    | none => rw [findAgg_append_none hma]; simp [findAgg, hne]

theorem processEntry_new (attorneys : Option (List AttorneyRecord)) {m : AggMap}
    (e : BillingEntry) (hnone : findAgg m e.attorney = none) :
    findAgg (processEntry attorneys m e) e.attorney
      = some ⟨e.hours, e.rate, resolveYearsExp attorneys e⟩ := by
  simp only [processEntry]
  rw [hnone, findAgg_append_none hnone]
  simp [findAgg]

theorem foldl_found_char (attorneys : Option (List AttorneyRecord)) :
    ∀ (entries : List BillingEntry) (m : AggMap) {a : String} {v : AttorneyAgg},
    findAgg m a = some v → 0 ≤ v.hours → (∀ e ∈ entries, 0 ≤ e.hours) →
    findAgg (entries.foldl (processEntry attorneys) m) a =
      some ⟨v.hours + hoursSum (attorneyEntries entries a),
        if v.hours + hoursSum (attorneyEntries entries a) = 0 then
          (if attorneyEntries entries a = [] then v.billedRate else 0)
        else
          (v.hours * v.billedRate + weightedSum (attorneyEntries entries a))
            / (v.hours + hoursSum (attorneyEntries entries a)),
        v.yearsExperience⟩ := by
  intro entries
  induction entries with
  | nil =>
    intro m a v hfind hv _
    simp only [List.foldl_nil, attorneyEntries, List.filter_nil]
    rw [hfind]
    obtain ⟨vh, vb, ve⟩ := v
    simp only [Option.some.injEq, AttorneyAgg.mk.injEq]
    simp only [hoursSum, weightedSum, List.map_nil, List.sum_nil, add_zero]
    refine ⟨by simp, ?_, by simp⟩
    by_cases hz : vh = 0
    · simp [hz]
    · rw [if_neg hz, mul_comm vh vb, mul_div_assoc, div_self hz, mul_one]
  | cons e rest ih =>
    intro m a v hfind hv hnn
    rw [List.foldl_cons]
    have hnnr : ∀ x ∈ rest, 0 ≤ x.hours := fun x hx => hnn x (List.mem_cons_of_mem _ hx)
    have hse : 0 ≤ e.hours := hnn e (List.mem_cons_self _ _)
    by_cases hea : e.attorney = a
    · subst hea
      have hstep : findAgg (processEntry attorneys m e) e.attorney =
          some ⟨v.hours + e.hours,
                (v.billedRate * v.hours + e.rate * e.hours) / (v.hours + e.hours),
                v.yearsExperience⟩ := by
        simp only [processEntry]
        rw [hfind]
        exact findAgg_updateAgg_self hfind _
      have hφ : attorneyEntries (e :: rest) e.attorney
          = e :: attorneyEntries rest e.attorney := by
        simp [attorneyEntries]
      rw [ih _ hstep (add_nonneg hv hse) hnnr, hφ]
      have hS : 0 ≤ hoursSum (attorneyEntries rest e.attorney) :=
        hoursSum_nonneg fun x hx => hnnr x (List.mem_filter.mp hx).1
      simp only [Option.some.injEq, AttorneyAgg.mk.injEq, hoursSum_cons, weightedSum_cons]
      refine ⟨by ring, ?_, by simp⟩
      set S := hoursSum (attorneyEntries rest e.attorney) with hSdef
      set W := weightedSum (attorneyEntries rest e.attorney) with hWdef
      have hassoc : v.hours + e.hours + S = v.hours + (e.hours + S) := by ring
      by_cases hT : v.hours + (e.hours + S) = 0
      · have h1 : v.hours = 0 := by linarith
        have h2 : e.hours = 0 := by linarith
        have h3 : S = 0 := by linarith
        have hvb : (v.billedRate * v.hours + e.rate * e.hours) / (v.hours + e.hours) = 0 := by
          rw [h1, h2]
          simp
        rw [hassoc, if_pos hT, if_pos hT]
        by_cases hrest : attorneyEntries rest e.attorney = []
        · simp [hrest, hvb]
        · simp [hrest]
      · rw [hassoc, if_neg hT, if_neg hT]
        have hprod : (v.hours + e.hours)
            * ((v.billedRate * v.hours + e.rate * e.hours) / (v.hours + e.hours))
            = v.hours * v.billedRate + e.rate * e.hours := by
          by_cases hHe : v.hours + e.hours = 0
          · have h1 : v.hours = 0 := by linarith
            have h2 : e.hours = 0 := by linarith
            rw [h1, h2]
            simp
          · rw [mul_comm (v.hours + e.hours), div_mul_cancel₀ _ hHe]
            ring
        rw [hprod]
        ring_nf
    · have hφ : attorneyEntries (e :: rest) a = attorneyEntries rest a := by
        simp [attorneyEntries, hea]
      rw [hφ]
      have hpres : findAgg (processEntry attorneys m e) a = some v := by
        rw [processEntry_findAgg_ne hea]
        exact hfind
      exact ih _ hpres hv hnnr

/-- The aggregate an attorney ends up with, as a function of that attorney's
own entry list: total hours, the hours-weighted blended rate (with the
division-by-zero corner cases made explicit), and the experience resolved at
the first entry. -/
def aggOf (attorneys : Option (List AttorneyRecord)) (φ : List BillingEntry) :
    Option AttorneyAgg :=
  match φ with
  | [] => none
  | e₀ :: rest =>
    some ⟨hoursSum (e₀ :: rest),
      if hoursSum (e₀ :: rest) = 0 then (if rest = [] then e₀.rate else 0)
      else weightedSum (e₀ :: rest) / hoursSum (e₀ :: rest),
      resolveYearsExp attorneys e₀⟩

theorem foldl_none_char {attorneys : Option (List AttorneyRecord)} :
    ∀ (entries : List BillingEntry) (m : AggMap) {a : String},
    findAgg m a = none → (∀ e ∈ entries, 0 ≤ e.hours) →
    findAgg (entries.foldl (processEntry attorneys) m) a
      = aggOf attorneys (attorneyEntries entries a) := by
  intro entries
  induction entries with
  | nil =>
    intro m a hnone _
    simpa [attorneyEntries, aggOf] using hnone
  | cons e rest ih =>
    intro m a hnone hnn
    rw [List.foldl_cons]
    have hnnr : ∀ x ∈ rest, 0 ≤ x.hours := fun x hx => hnn x (List.mem_cons_of_mem _ hx)
    by_cases hea : e.attorney = a
    · subst hea
      have hstep := processEntry_new attorneys e hnone
      have hres := foldl_found_char attorneys rest _ hstep
        (hnn e (List.mem_cons_self _ _)) hnnr
      rw [hres]
      have hφ : attorneyEntries (e :: rest) e.attorney
          = e :: attorneyEntries rest e.attorney := by
        simp [attorneyEntries]
      rw [hφ, aggOf]
      simp only [Option.some.injEq, AttorneyAgg.mk.injEq, hoursSum_cons, weightedSum_cons]
      refine ⟨by simp, ?_, by simp⟩
      by_cases hT : e.hours + hoursSum (attorneyEntries rest e.attorney) = 0
      · rw [if_pos hT, if_pos hT]
      · rw [if_neg hT, if_neg hT]
        ring_nf
    · have hφ : attorneyEntries (e :: rest) a = attorneyEntries rest a := by
        simp [attorneyEntries, hea]
      rw [hφ]
      exact ih _ (processEntry_preserves_none hea hnone) hnnr

theorem findAgg_aggregate_char (entries : List BillingEntry)
    (attorneys : Option (List AttorneyRecord)) (a : String)
    (hnn : ∀ e ∈ entries, 0 ≤ e.hours) :
    findAgg (aggregateEntries entries attorneys) a
      = aggOf attorneys (attorneyEntries entries a) :=
  foldl_none_char entries [] (by simp [findAgg]) hnn

theorem aggOf_perm_eq {attorneys : Option (List AttorneyRecord)}
    {φ₁ φ₂ : List BillingEntry} (hperm : φ₁.Perm φ₂)
    (hexp : ∀ e₁ ∈ φ₁, ∀ e₂ ∈ φ₁,
      resolveYearsExp attorneys e₁ = resolveYearsExp attorneys e₂) :
    aggOf attorneys φ₁ = aggOf attorneys φ₂ := by
  have hhs : hoursSum φ₁ = hoursSum φ₂ := (hperm.map _).sum_eq
  have hws : weightedSum φ₁ = weightedSum φ₂ := (hperm.map _).sum_eq
  cases φ₁ with
  | nil =>
    have h2 : φ₂ = [] := List.perm_nil.mp hperm.symm
    rw [h2]
  | cons e₀ rest =>
    cases φ₂ with
    | nil => exact absurd (List.perm_nil.mp hperm) (by simp)
    | cons e₀' rest' =>
      simp only [aggOf, Option.some.injEq, AttorneyAgg.mk.injEq]
      refine ⟨hhs, ?_, ?_⟩
      · rw [hhs, hws]
        by_cases hz : hoursSum (e₀' :: rest') = 0
        · rw [if_pos hz, if_pos hz]
          by_cases hrest : rest = []
          · subst hrest
            have h2 : e₀' :: rest' = [e₀] := List.perm_singleton.mp hperm.symm
            obtain ⟨h2a, h2b⟩ := List.cons.injEq .. ▸ h2
            simp [h2a, h2b]
          · have hrest' : rest' ≠ [] := by
              intro h
              subst h
              have := List.perm_singleton.mp hperm
              simp at this
              exact hrest this.2
            rw [if_neg hrest, if_neg hrest']
        · rw [if_neg hz, if_neg hz]
      · refine hexp e₀ (List.mem_cons_self _ _) e₀' (hperm.mem_iff.mpr ?_)
        exact List.mem_cons_self _ _

/-- The `totalLaffey` contribution of one key of the map. -/
def keyContribution (laffeyMatrix : LaffeyMatrix) (m : AggMap) (k : String) : ℚ :=
  match findAgg m k with
  | some v => v.hours * calculateLaffeyRate v.yearsExperience laffeyMatrix
  | none => 0

/-- Sum of `hours * benchmark rate` over the aggregates in the map: exactly
the quantity `totalLaffey` accumulates in the second loop. -/
def laffeySum (laffeyMatrix : LaffeyMatrix) (m : AggMap) : ℚ :=
  (m.map fun p => p.2.hours * calculateLaffeyRate p.2.yearsExperience laffeyMatrix).sum

theorem totalLaffey_eq_laffeySum (entries : List BillingEntry) (laffeyMatrix : LaffeyMatrix)
    (attorneys : Option (List AttorneyRecord)) :
    (calculateLaffeyComparison entries laffeyMatrix attorneys).totalLaffey
      = laffeySum laffeyMatrix (aggregateEntries entries attorneys) := by
  simp [calculateLaffeyComparison, laffeySum, mkLaffeyRow, List.map_map]
  rfl

theorem laffeySum_eq_keys (laffeyMatrix : LaffeyMatrix) :
    ∀ (m : AggMap), (aggKeys m).Nodup →
    laffeySum laffeyMatrix m
      = ((aggKeys m).map (keyContribution laffeyMatrix m)).sum := by
  intro m
  induction m with
  | nil => intro _; rfl
  | cons p rest ih =>
    intro hnodup
    obtain ⟨k, v⟩ := p
    simp only [aggKeys, List.map_cons, List.nodup_cons] at hnodup
    simp only [laffeySum, aggKeys, List.map_cons, List.sum_cons]
    have hhead : keyContribution laffeyMatrix ((k, v) :: rest) k
        = v.hours * calculateLaffeyRate v.yearsExperience laffeyMatrix := by
      simp [keyContribution, findAgg]
    rw [hhead]
    congr 1
    have htail := ih hnodup.2
    simp only [laffeySum, aggKeys] at htail
    rw [htail]
    refine congrArg List.sum (List.map_congr_left ?_)
    intro k' hk'
    have hkk : k ≠ k' := fun h => hnodup.1 (h ▸ hk')
    simp [keyContribution, findAgg, hkk]

/-- C8 amended: aggregation is order-independent provided hours are
non-negative and all entries of the same attorney resolve to the same
experience: for any permutation of the entry list, every attorney's final
aggregate (hours, blended rate and stored experience) and the comparison's
`totalBilled`, `totalLaffey`, `difference` and `isUnderLaffey` are identical.
(Without the same-experience condition the claim is false — see the
counterexample — because the stored experience comes from the first entry.) -/
theorem aggregation_permutation_invariant (l₁ l₂ : List BillingEntry)
    (laffeyMatrix : LaffeyMatrix) (attorneys : Option (List AttorneyRecord)) (a : String)
    (hperm : l₁.Perm l₂)
    (hnn : ∀ e ∈ l₁, 0 ≤ e.hours)
    (hcons : ∀ e₁ ∈ l₁, ∀ e₂ ∈ l₁, e₁.attorney = e₂.attorney →
      resolveYearsExp attorneys e₁ = resolveYearsExp attorneys e₂) :
    findAgg (aggregateEntries l₁ attorneys) a = findAgg (aggregateEntries l₂ attorneys) a ∧
    (calculateLaffeyComparison l₁ laffeyMatrix attorneys).totalBilled
      = (calculateLaffeyComparison l₂ laffeyMatrix attorneys).totalBilled ∧
    (calculateLaffeyComparison l₁ laffeyMatrix attorneys).totalLaffey
      = (calculateLaffeyComparison l₂ laffeyMatrix attorneys).totalLaffey ∧
    (calculateLaffeyComparison l₁ laffeyMatrix attorneys).difference
      = (calculateLaffeyComparison l₂ laffeyMatrix attorneys).difference ∧
    (calculateLaffeyComparison l₁ laffeyMatrix attorneys).isUnderLaffey
      = (calculateLaffeyComparison l₂ laffeyMatrix attorneys).isUnderLaffey := by
  have hnn₂ : ∀ e ∈ l₂, 0 ≤ e.hours := fun e he => hnn e (hperm.mem_iff.mpr he)
  have hlookup : ∀ b, findAgg (aggregateEntries l₁ attorneys) b
      = findAgg (aggregateEntries l₂ attorneys) b := by
    intro b
    rw [findAgg_aggregate_char l₁ attorneys b hnn, findAgg_aggregate_char l₂ attorneys b hnn₂]
    refine aggOf_perm_eq (hperm.filter _) ?_
    intro e₁ h₁ e₂ h₂
    have m₁ := List.mem_filter.mp h₁
    have m₂ := List.mem_filter.mp h₂
    refine hcons e₁ m₁.1 e₂ m₂.1 ?_
    have b₁ : e₁.attorney = b := by simpa using m₁.2
    have b₂ : e₂.attorney = b := by simpa using m₂.2
    rw [b₁, b₂]
  have htb : (calculateLaffeyComparison l₁ laffeyMatrix attorneys).totalBilled
      = (calculateLaffeyComparison l₂ laffeyMatrix attorneys).totalBilled := by
    rw [totalBilled_eq_billedSum, totalBilled_eq_billedSum]
    have h₁ : billedSum (aggregateEntries l₁ attorneys) = entriesBilled l₁ := by
      rw [aggregateEntries, billedSum_foldl l₁ [] hnn (by simp)]
      simp [billedSum]
    have h₂ : billedSum (aggregateEntries l₂ attorneys) = entriesBilled l₂ := by
      rw [aggregateEntries, billedSum_foldl l₂ [] hnn₂ (by simp)]
      simp [billedSum]
    rw [h₁, h₂]
    exact (hperm.map _).sum_eq
  have htl : (calculateLaffeyComparison l₁ laffeyMatrix attorneys).totalLaffey
      = (calculateLaffeyComparison l₂ laffeyMatrix attorneys).totalLaffey := by
    rw [totalLaffey_eq_laffeySum, totalLaffey_eq_laffeySum,
      laffeySum_eq_keys laffeyMatrix _ (aggregateEntries_keys_nodup l₁ attorneys),
      laffeySum_eq_keys laffeyMatrix _ (aggregateEntries_keys_nodup l₂ attorneys)]
    have hkeysperm : (aggKeys (aggregateEntries l₁ attorneys)).Perm
        (aggKeys (aggregateEntries l₂ attorneys)) := by
      refine (List.perm_ext_iff_of_nodup (aggregateEntries_keys_nodup l₁ attorneys)
        (aggregateEntries_keys_nodup l₂ attorneys)).mpr ?_
      intro b
      rw [mem_aggregateEntries_keys, mem_aggregateEntries_keys]
      exact (hperm.map _).mem_iff
    have hfun : keyContribution laffeyMatrix (aggregateEntries l₁ attorneys)
        = keyContribution laffeyMatrix (aggregateEntries l₂ attorneys) := by
      funext b
      simp [keyContribution, hlookup b]
    rw [hfun]
    exact ((hkeysperm.map _).sum_eq)
  have hdiff₁ : (calculateLaffeyComparison l₁ laffeyMatrix attorneys).difference
      = (calculateLaffeyComparison l₁ laffeyMatrix attorneys).totalLaffey
        - (calculateLaffeyComparison l₁ laffeyMatrix attorneys).totalBilled := rfl
  have hdiff₂ : (calculateLaffeyComparison l₂ laffeyMatrix attorneys).difference
      = (calculateLaffeyComparison l₂ laffeyMatrix attorneys).totalLaffey
        - (calculateLaffeyComparison l₂ laffeyMatrix attorneys).totalBilled := rfl
  have hflag₁ : (calculateLaffeyComparison l₁ laffeyMatrix attorneys).isUnderLaffey
      = decide ((calculateLaffeyComparison l₁ laffeyMatrix attorneys).totalBilled
        ≤ (calculateLaffeyComparison l₁ laffeyMatrix attorneys).totalLaffey) := rfl
  have hflag₂ : (calculateLaffeyComparison l₂ laffeyMatrix attorneys).isUnderLaffey
      = decide ((calculateLaffeyComparison l₂ laffeyMatrix attorneys).totalBilled
        ≤ (calculateLaffeyComparison l₂ laffeyMatrix attorneys).totalLaffey) := rfl
  refine ⟨hlookup a, htb, htl, ?_, ?_⟩
  · rw [hdiff₁, hdiff₂, htb, htl]
  · rw [hflag₁, hflag₂, htb, htl]

theorem aggregation_permutation_invariant_witness :
    (findAgg (aggregateEntries
        [⟨"Alice", 2, 300, "research", "2024-01-02", some 9⟩,
         ⟨"Bob", 1, 400, "drafting", "2024-01-03", none⟩,
         ⟨"Alice", 3, 500, "deposition", "2024-01-04", some 9⟩] none) "Alice"
      = findAgg (aggregateEntries
        [⟨"Bob", 1, 400, "drafting", "2024-01-03", none⟩,
         ⟨"Alice", 2, 300, "research", "2024-01-02", some 9⟩,
         ⟨"Alice", 3, 500, "deposition", "2024-01-04", some 9⟩] none) "Alice") ∧
    ((calculateLaffeyComparison
        [⟨"Alice", 2, 300, "research", "2024-01-02", some 9⟩,
         ⟨"Bob", 1, 400, "drafting", "2024-01-03", none⟩,
         ⟨"Alice", 3, 500, "deposition", "2024-01-04", some 9⟩] scenarioMatrix none).totalBilled
      = (calculateLaffeyComparison
        [⟨"Bob", 1, 400, "drafting", "2024-01-03", none⟩,
         ⟨"Alice", 2, 300, "research", "2024-01-02", some 9⟩,
         ⟨"Alice", 3, 500, "deposition", "2024-01-04", some 9⟩] scenarioMatrix none).totalBilled) ∧
    ((calculateLaffeyComparison
        [⟨"Alice", 2, 300, "research", "2024-01-02", some 9⟩,
         ⟨"Bob", 1, 400, "drafting", "2024-01-03", none⟩,
         ⟨"Alice", 3, 500, "deposition", "2024-01-04", some 9⟩] scenarioMatrix none).totalLaffey
      = (calculateLaffeyComparison
        [⟨"Bob", 1, 400, "drafting", "2024-01-03", none⟩,
         ⟨"Alice", 2, 300, "research", "2024-01-02", some 9⟩,
         ⟨"Alice", 3, 500, "deposition", "2024-01-04", some 9⟩] scenarioMatrix none).totalLaffey) ∧
    ((calculateLaffeyComparison
        [⟨"Alice", 2, 300, "research", "2024-01-02", some 9⟩,
         ⟨"Bob", 1, 400, "drafting", "2024-01-03", none⟩,
         ⟨"Alice", 3, 500, "deposition", "2024-01-04", some 9⟩] scenarioMatrix none).difference
      = (calculateLaffeyComparison
        [⟨"Bob", 1, 400, "drafting", "2024-01-03", none⟩,
         ⟨"Alice", 2, 300, "research", "2024-01-02", some 9⟩,
         ⟨"Alice", 3, 500, "deposition", "2024-01-04", some 9⟩] scenarioMatrix none).difference) ∧
    ((calculateLaffeyComparison
        [⟨"Alice", 2, 300, "research", "2024-01-02", some 9⟩,
         ⟨"Bob", 1, 400, "drafting", "2024-01-03", none⟩,
         ⟨"Alice", 3, 500, "deposition", "2024-01-04", some 9⟩] scenarioMatrix none).isUnderLaffey
      = (calculateLaffeyComparison
        [⟨"Bob", 1, 400, "drafting", "2024-01-03", none⟩,
         ⟨"Alice", 2, 300, "research", "2024-01-02", some 9⟩,
         ⟨"Alice", 3, 500, "deposition", "2024-01-04", some 9⟩] scenarioMatrix none).isUnderLaffey) :=
  aggregation_permutation_invariant _ _ scenarioMatrix none "Alice"
    (List.Perm.swap _ _ _) (by decide) (by decide)

/-- First entry of the C8 counterexample: Alice at 1 hour, rate 500, claiming
2 years of experience. -/
def permEntryA : BillingEntry := ⟨"Alice", 1, 500, "research", "2024-01-02", some 2⟩

/-- Second entry of the C8 counterexample: Alice again, now claiming 25
years. -/
def permEntryB : BillingEntry := ⟨"Alice", 1, 500, "research", "2024-01-03", some 25⟩

/-- C8 counterexample: a permutation of an entry list with non-negative hours
on which even the final verdict flips.  The stored experience comes from the
attorney's first entry, so swapping two entries of the same attorney that
carry different `yearsExperience` (2 vs 25) changes the benchmark tier
(junior 300 vs veteran 700), `totalLaffey` (600 vs 1400), `difference` and
`isUnderLaffey` (false vs true). -/
theorem aggregation_not_permutation_invariant_cex :
    ([permEntryA, permEntryB].Perm [permEntryB, permEntryA]) ∧
    (∀ e ∈ [permEntryA, permEntryB], 0 ≤ e.hours) ∧
    (calculateLaffeyComparison [permEntryA, permEntryB] scenarioMatrix none).totalLaffey
      = 600 ∧
    (calculateLaffeyComparison [permEntryB, permEntryA] scenarioMatrix none).totalLaffey
      = 1400 ∧
    (calculateLaffeyComparison [permEntryA, permEntryB] scenarioMatrix none).isUnderLaffey
      = false ∧
    (calculateLaffeyComparison [permEntryB, permEntryA] scenarioMatrix none).isUnderLaffey
      = true := by
  refine ⟨List.Perm.swap _ _ _, by decide, ?_, ?_, ?_, ?_⟩
  · simp [calculateLaffeyComparison, aggregateEntries, processEntry, findAgg, updateAgg,
      mkLaffeyRow, resolveYearsExp, jsOrNum, rosterExperience, calculateLaffeyRate,
      permEntryA, permEntryB, scenarioMatrix, List.foldl]
    norm_num
  · simp [calculateLaffeyComparison, aggregateEntries, processEntry, findAgg, updateAgg,
      mkLaffeyRow, resolveYearsExp, jsOrNum, rosterExperience, calculateLaffeyRate,
      permEntryA, permEntryB, scenarioMatrix, List.foldl]
    norm_num
  · simp [calculateLaffeyComparison, aggregateEntries, processEntry, findAgg, updateAgg,
      mkLaffeyRow, resolveYearsExp, jsOrNum, rosterExperience, calculateLaffeyRate,
      permEntryA, permEntryB, scenarioMatrix, List.foldl]
    norm_num
  · simp [calculateLaffeyComparison, aggregateEntries, processEntry, findAgg, updateAgg,
      mkLaffeyRow, resolveYearsExp, jsOrNum, rosterExperience, calculateLaffeyRate,
      permEntryA, permEntryB, scenarioMatrix, List.foldl]
    norm_num

end LemonLaw
